import Mathlib

/-!
Shallow embedding of the ledger and consensus engine of
`src/decentralized-blockchain-nodejs/index.js`.

Modelling conventions:
* The SHA-256 digest of the canonical JSON serialization of the six pre-hash
  fields is abstracted as a function `H : HashInput Data → String`; `HashInput`
  is exactly the record `{index, timestamp, data, prevHash, nonce, difficulty}`
  that `calculateHash` serializes and hashes.  `data` (the payload) is an
  opaque type parameter `Data`.
* JS numbers appearing as block indices are modelled as `Int`; timestamps,
  nonces and (block-resident) difficulties as `Nat` (`"0".repeat(d)` requires a
  non-negative count).  The raw `difficulty` argument of `mineBlock`, which may
  be any JS value, is modelled as `Option Int` (`none` = not a number).
* The unbounded `while (true)` nonce search of `proofOfWork` is modelled with
  explicit fuel; `none` stands for a search that has not yet terminated.
* `Date.now()` and the express request context are passed as explicit
  arguments; filesystem persistence (`save`/`load`) has no observable effect on
  the in-memory chain and is dropped.
-/

/-- Record of the six fields serialized and hashed by `calculateHash`
(`JSON.stringify({ index, timestamp, data, prevHash, nonce, difficulty })`). -/
structure HashInput (Data : Type) where
  index : Int
  timestamp : Nat
  data : Data
  prevHash : String
  nonce : Nat
  difficulty : Nat
  deriving DecidableEq

/-- Mirror of `class Block` (index.js lines 28-38). -/
structure Block (Data : Type) where
  index : Int
  timestamp : Nat
  data : Data
  prevHash : String
  nonce : Nat
  difficulty : Nat
  hash : String
  deriving DecidableEq

/-- The six pre-hash fields of a block, as `calculateHash(newBlock)` reads them
(the `hash` field itself is not part of the serialized payload). -/
def Block.fields {Data : Type} (b : Block Data) : HashInput Data :=
  ⟨b.index, b.timestamp, b.data, b.prevHash, b.nonce, b.difficulty⟩

/-- Models the string `"0".repeat(d)`. -/
def zeroRun (d : Nat) : String :=
  String.mk (List.replicate d '0')

/-- Models `hash.startsWith("0".repeat(difficulty))`: the hash string begins
with at least `difficulty` zero characters. -/
def hashMeetsTarget (hash : String) (difficulty : Nat) : Bool :=
  List.isPrefixOf (List.replicate difficulty '0') hash.data

/-- Mirror of `calculateHash` (index.js lines 79-82): serialize the six fields
and hash them; the composite `sha256 ∘ JSON.stringify` is the abstract `H`. -/
def calculateHash {Data : Type} (H : HashInput Data → String) (inp : HashInput Data) : String :=
  H inp

/-- Mirror of `isValidNewBlock` (index.js lines 98-105), with its four
early-return checks in source order. -/
def isValidNewBlock {Data : Type} (H : HashInput Data → String)
    (newBlock prevBlock : Block Data) : Bool :=
  if prevBlock.index + 1 ≠ newBlock.index then false
  else if prevBlock.hash ≠ newBlock.prevHash then false
  else if calculateHash H newBlock.fields ≠ newBlock.hash then false
  else if ¬ hashMeetsTarget newBlock.hash newBlock.difficulty then false
  else true

/-- The validation loop of `isChainValid` (index.js lines 110-112):
`isValidNewBlock(chain[i], chain[i-1])` for every `i` from 1 on. -/
def chainLinksValid {Data : Type} (H : HashInput Data → String) : List (Block Data) → Bool
  | b₁ :: b₂ :: rest => isValidNewBlock H b₂ b₁ && chainLinksValid H (b₂ :: rest)
  | _ => true

/-- Mirror of `isChainValid` (index.js lines 107-114). -/
def isChainValid {Data : Type} (H : HashInput Data → String) (chain : List (Block Data)) : Bool :=
  if chain.length = 0 then false
  else chainLinksValid H chain

/-- State of a `Blockchain` instance: its block array and the
`defaultDifficulty` setting (the `dbFile` handle is persistence-only). -/
structure Blockchain (Data : Type) where
  chain : List (Block Data)
  defaultDifficulty : Nat
  deriving DecidableEq

/-- Mirror of `getLatestBlock` (index.js lines 94-96):
`this.chain[this.chain.length - 1]`, `none` when the chain is empty (JS
`undefined`). -/
def getLatestBlock {Data : Type} (bc : Blockchain Data) : Option (Block Data) :=
  bc.chain.getLast?

/-- Mirror of `replaceChain` (index.js lines 164-170); returns the new state
and the boolean result. -/
def replaceChain {Data : Type} (H : HashInput Data → String) (bc : Blockchain Data)
    (newChain : List (Block Data)) : Blockchain Data × Bool :=
  if newChain.length ≤ bc.chain.length then (bc, false)
  else if ¬ isChainValid H newChain then (bc, false)
  else ({ bc with chain := newChain }, true)

/-- Mirror of the `POST /api/receive-block` handler (index.js lines 241-256):
validate the pushed block against the current tip with `isValidNewBlock`, push
it on success, reject without mutation otherwise. -/
def apiReceiveBlock {Data : Type} (H : HashInput Data → String) (bc : Blockchain Data)
    (incoming : Block Data) : Blockchain Data × Bool :=
  match getLatestBlock bc with
  | none => (bc, false)
  | some prev =>
    if isValidNewBlock H incoming prev then
      ({ bc with chain := bc.chain ++ [incoming] }, true)
    else (bc, false)

/-- Fuel-indexed unfolding of the `while (true)` loop of `proofOfWork`
(index.js lines 84-92), starting at the given nonce. -/
def proofOfWorkAux {Data : Type} (H : HashInput Data → String) (index : Int) (timestamp : Nat)
    (data : Data) (prevHash : String) (difficulty : Nat) :
    Nat → Nat → Option (Nat × String)
  | 0, _ => none
  | fuel + 1, nonce =>
    let hash := calculateHash H ⟨index, timestamp, data, prevHash, nonce, difficulty⟩
    if hashMeetsTarget hash difficulty then some (nonce, hash)
    else proofOfWorkAux H index timestamp data prevHash difficulty fuel (nonce + 1)

/-- Mirror of `proofOfWork` (index.js lines 84-92): search nonces upward from
0; `none` when the loop has not returned within `fuel` iterations. -/
def proofOfWork {Data : Type} (H : HashInput Data → String) (index : Int) (timestamp : Nat)
    (data : Data) (prevHash : String) (difficulty : Nat) (fuel : Nat) :
    Option (Nat × String) :=
  proofOfWorkAux H index timestamp data prevHash difficulty fuel 0

/-- Mirror of `setBlock` (index.js lines 116-127).  `none` covers the absence
of a result: an empty chain (JS TypeError), an unfinished nonce search, or the
defensive `throw new Error("Invalid block")`. -/
def setBlock {Data : Type} (H : HashInput Data → String) (bc : Blockchain Data)
    (data : Data) (timestamp : Nat) (fuel : Nat) :
    Option (Blockchain Data × Block Data) :=
  match getLatestBlock bc with
  | none => none
  | some prev =>
    let index := prev.index + 1
    let difficulty := bc.defaultDifficulty
    match proofOfWork H index timestamp data prev.hash difficulty fuel with
    | none => none
    | some (nonce, hash) =>
      let block : Block Data := ⟨index, timestamp, data, prev.hash, nonce, difficulty, hash⟩
      if ¬ isValidNewBlock H block prev then none
      else some ({ bc with chain := bc.chain ++ [block] }, block)

/-- The difficulty actually mined with, per `mineBlock` line 155:
`typeof difficulty === "number" && difficulty > 0 ? difficulty :
this.defaultDifficulty`; `none` models a non-number argument. -/
def mineDifficulty {Data : Type} (bc : Blockchain Data) (difficulty : Option Int) : Nat :=
  match difficulty with
  | some d => if 0 < d then d.toNat else bc.defaultDifficulty
  | none => bc.defaultDifficulty

/-- Mirror of `mineBlock` (index.js lines 151-162). -/
def mineBlock {Data : Type} (H : HashInput Data → String) (bc : Blockchain Data)
    (data : Data) (difficulty : Option Int) (timestamp : Nat) (fuel : Nat) :
    Option (Blockchain Data × Block Data) :=
  match getLatestBlock bc with
  | none => none
  | some prev =>
    let index := prev.index + 1
    let diff := mineDifficulty bc difficulty
    match proofOfWork H index timestamp data prev.hash diff fuel with
    | none => none
    | some (nonce, hash) =>
      let block : Block Data := ⟨index, timestamp, data, prev.hash, nonce, diff, hash⟩
      if ¬ isValidNewBlock H block prev then none
      else some ({ bc with chain := bc.chain ++ [block] }, block)

/-- Mirror of `createGenesisBlock` (index.js lines 70-77): index 0, all-zero
64-character parent sentinel, difficulty 1. -/
def createGenesisBlock {Data : Type} (H : HashInput Data → String) (data : Data)
    (timestamp : Nat) (fuel : Nat) : Option (Block Data) :=
  let prevHash := zeroRun 64
  let difficulty := 1
  match proofOfWork H 0 timestamp data prevHash difficulty fuel with
  | none => none
  | some (nonce, hash) => some ⟨0, timestamp, data, prevHash, nonce, difficulty, hash⟩

/-- One step of the inline candidate validation of the `POST /api/resolve`
handler (index.js lines 290-299): recomputed hash, parent link and the
proof-of-work target — the block index is NOT checked there. -/
def inlineValidPair {Data : Type} (H : HashInput Data → String)
    (prev curr : Block Data) : Bool :=
  if calculateHash H curr.fields ≠ curr.hash ∨ curr.prevHash ≠ prev.hash ∨
      ¬ hashMeetsTarget curr.hash curr.difficulty then false
  else true

/-- The inline validation loop of `POST /api/resolve` over every adjacent pair
from index 1 on. -/
def inlineValidChain {Data : Type} (H : HashInput Data → String) : List (Block Data) → Bool
  | b₁ :: b₂ :: rest => inlineValidPair H b₁ b₂ && inlineValidChain H (b₂ :: rest)
  | _ => true

/-- The peer scan of `POST /api/resolve` (index.js lines 280-305): fold over
the fetched peer responses (`none` = fetch failure or a malformed body,
swallowed by the inner `catch`), keeping the running best chain, which starts
as the local chain. -/
def resolveBest {Data : Type} (H : HashInput Data → String) :
    List (Block Data) → List (Option (List (Block Data))) → List (Block Data)
  | best, [] => best
  | best, none :: rest => resolveBest H best rest
  | best, some candidate :: rest =>
    if best.length < candidate.length then
      if inlineValidChain H candidate then resolveBest H candidate rest
      else resolveBest H best rest
    else resolveBest H best rest

/-- Mirror of the whole `POST /api/resolve` handler (index.js lines 278-311):
scan the fetched candidates, then `replaceChain(bestChain)`. -/
def apiResolve {Data : Type} (H : HashInput Data → String) (bc : Blockchain Data)
    (fetched : List (Option (List (Block Data)))) : Blockchain Data × Bool :=
  replaceChain H bc (resolveBest H bc.chain fetched)

/-- One append request: a `setBlock` call or a `mineBlock` call with its
request payload, timestamp and fuel. -/
inductive AppendOp (Data : Type) where
  | set (data : Data) (timestamp : Nat) (fuel : Nat)
  | mine (data : Data) (difficulty : Option Int) (timestamp : Nat) (fuel : Nat)

/-- Run one append request against the ledger state. -/
def applyAppendOp {Data : Type} (H : HashInput Data → String) (bc : Blockchain Data) :
    AppendOp Data → Option (Blockchain Data)
  | .set data timestamp fuel => (setBlock H bc data timestamp fuel).map Prod.fst
  | .mine data difficulty timestamp fuel =>
      (mineBlock H bc data difficulty timestamp fuel).map Prod.fst

/-- Run a sequence of append requests; `none` as soon as one fails. -/
def applyAppendOps {Data : Type} (H : HashInput Data → String) :
    Blockchain Data → List (AppendOp Data) → Option (Blockchain Data)
  | bc, [] => some bc
  | bc, op :: ops =>
    match applyAppendOp H bc op with
    | none => none
    | some bc' => applyAppendOps H bc' ops

/-- Proposition that `b'` differs from `b` in exactly one of the six fields
index, prevHash, nonce, difficulty, data, hash (the changed field holding a
different value, every other field equal). -/
def MutatedOneField {Data : Type} (b b' : Block Data) : Prop :=
  (b'.index ≠ b.index ∧ b'.timestamp = b.timestamp ∧ b'.data = b.data ∧
    b'.prevHash = b.prevHash ∧ b'.nonce = b.nonce ∧ b'.difficulty = b.difficulty ∧
    b'.hash = b.hash) ∨
  (b'.index = b.index ∧ b'.timestamp = b.timestamp ∧ b'.data = b.data ∧
    b'.prevHash ≠ b.prevHash ∧ b'.nonce = b.nonce ∧ b'.difficulty = b.difficulty ∧
    b'.hash = b.hash) ∨
  (b'.index = b.index ∧ b'.timestamp = b.timestamp ∧ b'.data = b.data ∧
    b'.prevHash = b.prevHash ∧ b'.nonce ≠ b.nonce ∧ b'.difficulty = b.difficulty ∧
    b'.hash = b.hash) ∨
  (b'.index = b.index ∧ b'.timestamp = b.timestamp ∧ b'.data = b.data ∧
    b'.prevHash = b.prevHash ∧ b'.nonce = b.nonce ∧ b'.difficulty ≠ b.difficulty ∧
    b'.hash = b.hash) ∨
  (b'.index = b.index ∧ b'.timestamp = b.timestamp ∧ b'.data ≠ b.data ∧
    b'.prevHash = b.prevHash ∧ b'.nonce = b.nonce ∧ b'.difficulty = b.difficulty ∧
    b'.hash = b.hash) ∨
  (b'.index = b.index ∧ b'.timestamp = b.timestamp ∧ b'.data = b.data ∧
    b'.prevHash = b.prevHash ∧ b'.nonce = b.nonce ∧ b'.difficulty = b.difficulty ∧
    b'.hash ≠ b.hash)


instance {Data : Type} [DecidableEq Data] (b b' : Block Data) :
    Decidable (MutatedOneField b b') := by
  unfold MutatedOneField
  infer_instance

/-- Constant hash function used for the concrete scenarios below: every input
hashes to the one-character digest "0". -/
def hashConstZero : HashInput Nat → String := fun _ => "0"

/-- Concrete genesis-shaped block for the scenarios. -/
def genesisW : Block Nat := ⟨0, 0, 0, "0", 0, 1, "0"⟩

/-- Concrete fully valid successor of `genesisW`. -/
def goodNextW : Block Nat := ⟨1, 0, 1, "0", 0, 1, "0"⟩

/-- Concrete block whose index skips to 5 but whose hash, link and PoW checks
pass under `hashConstZero`. -/
def skipBlockW1 : Block Nat := ⟨5, 0, 2, "0", 0, 1, "0"⟩

/-- Concrete block whose index skips to 9 but whose hash, link and PoW checks
pass under `hashConstZero`. -/
def skipBlockW2 : Block Nat := ⟨9, 0, 3, "0", 0, 1, "0"⟩

/-- Concrete local node state: genesis-only chain. -/
def localNodeW : Blockchain Nat := ⟨[genesisW], 3⟩

/-- Concrete fetched candidate that passes `isChainValid` (length 2). -/
def goodCandW : List (Block Nat) := [genesisW, goodNextW]

/-- Concrete fetched candidate of length 3 that passes the inline validation
of the resolve endpoint but fails `isChainValid` (broken index continuity). -/
def badCandW : List (Block Nat) := [genesisW, skipBlockW1, skipBlockW2]

/-- Concrete peer responses: the index-broken length-3 candidate first, the
fully valid length-2 candidate second. -/
def fetchedW : List (Option (List (Block Nat))) := [some badCandW, some goodCandW]

/-! ### Concrete instantiations -/

/-- Concrete block mined on top of `genesisW` with payload 7 at difficulty 1
under `hashConstZero`. -/
def minedBlockW : Block Nat := ⟨1, 0, 7, "0", 0, 1, "0"⟩

/-- Concrete starting node with a genesis-only chain and default difficulty 1. -/
def startNodeW : Blockchain Nat := ⟨[genesisW], 1⟩

/-- Concrete node state after one successful append on `startNodeW`. -/
def appendedNodeW : Blockchain Nat := ⟨[genesisW, minedBlockW], 1⟩

/-- Concrete copy of `goodNextW` with only its `hash` field changed. -/
def tamperedBlockW : Block Nat := ⟨1, 0, 1, "0", 0, 1, "1"⟩

/-- Concrete pushed block carrying difficulty 0. -/
def zeroDiffBlockW : Block Nat := ⟨1, 0, 4, "0", 0, 0, "0"⟩


/-! ### Helper lemmas about the validators and chain operations -/

theorem isValidNewBlock_iff {Data : Type} (H : HashInput Data → String)
    (newBlock prevBlock : Block Data) :
    isValidNewBlock H newBlock prevBlock = true ↔
      (prevBlock.index + 1 = newBlock.index ∧ prevBlock.hash = newBlock.prevHash ∧
        calculateHash H newBlock.fields = newBlock.hash ∧
        hashMeetsTarget newBlock.hash newBlock.difficulty = true) := by
  unfold isValidNewBlock
  split_ifs with h1 h2 h3 h4 <;> simp_all

theorem inlineValidPair_iff {Data : Type} (H : HashInput Data → String)
    (prev curr : Block Data) :
    inlineValidPair H prev curr = true ↔
      (calculateHash H curr.fields = curr.hash ∧ curr.prevHash = prev.hash ∧
        hashMeetsTarget curr.hash curr.difficulty = true) := by
  unfold inlineValidPair
  split_ifs with h <;> simp_all
  tauto

theorem chainLinksValid_iff_pairs {Data : Type} (H : HashInput Data → String) :
    ∀ c : List (Block Data),
      chainLinksValid H c = true ↔
        ∀ i (h : i + 1 < c.length),
          isValidNewBlock H (c.get ⟨i + 1, h⟩) (c.get ⟨i, Nat.lt_of_succ_lt h⟩) = true
  | [] => by
    constructor
    · intro _ i h
      simp at h
    · intro _
      rfl
  | [b] => by
    constructor
    · intro _ i h
      simp at h
    · intro _
      rfl
  | a :: b :: t => by
    have ih := chainLinksValid_iff_pairs H (b :: t)
    show (isValidNewBlock H b a && chainLinksValid H (b :: t)) = true ↔ _
    rw [Bool.and_eq_true, ih]
    constructor
    · rintro ⟨hab, hrest⟩ i h
      match i with
      | 0 => exact hab
      | Nat.succ j => exact hrest j (by simpa using h)
    · intro hall
      refine ⟨hall 0 (by simp), fun j h => ?_⟩
      exact hall (j + 1) (by simpa using h)

theorem replaceChain_spec {Data : Type} (H : HashInput Data → String) (bc : Blockchain Data)
    (newChain : List (Block Data)) :
    ((replaceChain H bc newChain).2 = true ↔
      bc.chain.length < newChain.length ∧ isChainValid H newChain = true) ∧
    ((replaceChain H bc newChain).2 = true →
      replaceChain H bc newChain = ({ bc with chain := newChain }, true)) ∧
    ((replaceChain H bc newChain).2 = false → replaceChain H bc newChain = (bc, false)) := by
  unfold replaceChain
  split_ifs with h1 h2 <;> simp_all

theorem getLast?_eq_get {α : Type _} :
    ∀ (c : List α) (h : 0 < c.length), c.getLast? = some (c.get ⟨c.length - 1, by omega⟩)
  | [], h => by simp at h
  | [a], _ => rfl
  | a :: b :: t, _ => by
    rw [List.getLast?_cons_cons]
    exact getLast?_eq_get (b :: t) (by simp)

theorem proofOfWorkAux_sound {Data : Type} (H : HashInput Data → String) (index : Int)
    (timestamp : Nat) (data : Data) (prevHash : String) (difficulty : Nat) :
    ∀ fuel nonce n hash,
      proofOfWorkAux H index timestamp data prevHash difficulty fuel nonce = some (n, hash) →
      nonce ≤ n ∧ hash = H ⟨index, timestamp, data, prevHash, n, difficulty⟩ ∧
        hashMeetsTarget hash difficulty = true ∧
        ∀ k, nonce ≤ k → k < n →
          hashMeetsTarget (H ⟨index, timestamp, data, prevHash, k, difficulty⟩) difficulty = false
  | 0, nonce, n, hash => by
    intro h
    simp [proofOfWorkAux] at h
  | fuel + 1, nonce, n, hash => by
    intro h
    by_cases hc :
        hashMeetsTarget (H ⟨index, timestamp, data, prevHash, nonce, difficulty⟩) difficulty = true
    · simp [proofOfWorkAux, calculateHash, hc] at h
      obtain ⟨rfl, rfl⟩ := h
      exact ⟨Nat.le_refl _, rfl, hc, fun k hk1 hk2 => absurd (Nat.lt_of_le_of_lt hk1 hk2)
        (Nat.lt_irrefl _)⟩
    · rw [Bool.not_eq_true] at hc
      simp [proofOfWorkAux, calculateHash, hc] at h
      have ih := proofOfWorkAux_sound H index timestamp data prevHash difficulty fuel
        (nonce + 1) n hash h
      refine ⟨by omega, ih.2.1, ih.2.2.1, fun k hk1 hk2 => ?_⟩
      rcases Nat.eq_or_lt_of_le hk1 with heq | hlt
      · rw [← heq]
        exact hc
      · exact ih.2.2.2 k hlt hk2

theorem proofOfWorkAux_complete {Data : Type} (H : HashInput Data → String) (index : Int)
    (timestamp : Nat) (data : Data) (prevHash : String) (difficulty : Nat) :
    ∀ fuel nonce m, nonce ≤ m → m < nonce + fuel →
      hashMeetsTarget (H ⟨index, timestamp, data, prevHash, m, difficulty⟩) difficulty = true →
      (proofOfWorkAux H index timestamp data prevHash difficulty fuel nonce).isSome = true
  | 0, nonce, m => by
    intro h1 h2 _
    omega
  | fuel + 1, nonce, m => by
    intro h1 h2 hm
    by_cases hc :
        hashMeetsTarget (H ⟨index, timestamp, data, prevHash, nonce, difficulty⟩) difficulty = true
    · simp [proofOfWorkAux, calculateHash, hc]
    · rw [Bool.not_eq_true] at hc
      have hne : nonce ≠ m := fun he => by rw [he] at hc; rw [hm] at hc; cases hc
      have := proofOfWorkAux_complete H index timestamp data prevHash difficulty fuel
        (nonce + 1) m (by omega) (by omega) hm
      simpa [proofOfWorkAux, calculateHash, hc] using this

theorem chainLinksValid_append {Data : Type} (H : HashInput Data → String) :
    ∀ (c : List (Block Data)) (t b : Block Data),
      c.getLast? = some t → chainLinksValid H c = true → isValidNewBlock H b t = true →
      chainLinksValid H (c ++ [b]) = true
  | [], t, b => by
    intro h1
    simp at h1
  | [a], t, b => by
    intro h1 _ h3
    simp at h1
    subst h1
    show (isValidNewBlock H b a && chainLinksValid H [b]) = true
    simp [h3, chainLinksValid]
  | a :: a₂ :: rest, t, b => by
    intro h1 h2 h3
    rw [List.getLast?_cons_cons] at h1
    show (isValidNewBlock H a₂ a && chainLinksValid H ((a₂ :: rest) ++ [b])) = true
    have h2' : (isValidNewBlock H a₂ a && chainLinksValid H (a₂ :: rest)) = true := h2
    rw [Bool.and_eq_true] at h2' ⊢
    exact ⟨h2'.1, chainLinksValid_append H (a₂ :: rest) t b h1 h2'.2 h3⟩

theorem setBlock_some {Data : Type} (H : HashInput Data → String) (bc : Blockchain Data)
    (data : Data) (timestamp fuel : Nat) (bc' : Blockchain Data) (b : Block Data)
    (h : setBlock H bc data timestamp fuel = some (bc', b)) :
    ∃ prev, getLatestBlock bc = some prev ∧ isValidNewBlock H b prev = true ∧
      bc'.chain = bc.chain ++ [b] ∧ bc'.defaultDifficulty = bc.defaultDifficulty ∧
      b.difficulty = bc.defaultDifficulty ∧ b.data = data ∧ b.timestamp = timestamp := by
  unfold setBlock at h
  cases hl : getLatestBlock bc with
  | none => rw [hl] at h; cases h
  | some prev =>
    rw [hl] at h
    simp only at h
    cases hp : proofOfWork H (prev.index + 1) timestamp data prev.hash bc.defaultDifficulty
        fuel with
    | none => rw [hp] at h; cases h
    | some nh =>
      obtain ⟨nonce, hash⟩ := nh
      rw [hp] at h
      simp only at h
      split at h
      · cases h
      next hv =>
        have hv' : isValidNewBlock H
            ⟨prev.index + 1, timestamp, data, prev.hash, nonce, bc.defaultDifficulty, hash⟩
            prev = true := by
          rcases Bool.eq_false_or_eq_true (isValidNewBlock H
            ⟨prev.index + 1, timestamp, data, prev.hash, nonce, bc.defaultDifficulty, hash⟩
            prev) with ht | hf
          · exact ht
          · exact absurd (by simp [hf]) hv
        simp only [Option.some.injEq, Prod.mk.injEq] at h
        obtain ⟨h1, h2⟩ := h
        subst h1
        subst h2
        exact ⟨prev, rfl, hv', rfl, rfl, rfl, rfl, rfl⟩

theorem mineBlock_some {Data : Type} (H : HashInput Data → String) (bc : Blockchain Data)
    (data : Data) (difficulty : Option Int) (timestamp fuel : Nat) (bc' : Blockchain Data)
    (b : Block Data)
    (h : mineBlock H bc data difficulty timestamp fuel = some (bc', b)) :
    ∃ prev, getLatestBlock bc = some prev ∧ isValidNewBlock H b prev = true ∧
      bc'.chain = bc.chain ++ [b] ∧ bc'.defaultDifficulty = bc.defaultDifficulty ∧
      b.difficulty = mineDifficulty bc difficulty ∧ b.data = data ∧ b.timestamp = timestamp := by
  unfold mineBlock at h
  cases hl : getLatestBlock bc with
  | none => rw [hl] at h; cases h
  | some prev =>
    rw [hl] at h
    simp only at h
    cases hp : proofOfWork H (prev.index + 1) timestamp data prev.hash
        (mineDifficulty bc difficulty) fuel with
    | none => rw [hp] at h; cases h
    | some nh =>
      obtain ⟨nonce, hash⟩ := nh
      rw [hp] at h
      simp only at h
      split at h
      · cases h
      next hv =>
        have hv' : isValidNewBlock H
            ⟨prev.index + 1, timestamp, data, prev.hash, nonce, mineDifficulty bc difficulty,
              hash⟩ prev = true := by
          rcases Bool.eq_false_or_eq_true (isValidNewBlock H
            ⟨prev.index + 1, timestamp, data, prev.hash, nonce, mineDifficulty bc difficulty,
              hash⟩ prev) with ht | hf
          · exact ht
          · exact absurd (by simp [hf]) hv
        simp only [Option.some.injEq, Prod.mk.injEq] at h
        obtain ⟨h1, h2⟩ := h
        subst h1
        subst h2
        exact ⟨prev, rfl, hv', rfl, rfl, rfl, rfl, rfl⟩

theorem resolveBest_length_mono {Data : Type} (H : HashInput Data → String) :
    ∀ (fetched : List (Option (List (Block Data)))) (best : List (Block Data)),
      best.length ≤ (resolveBest H best fetched).length
  | [], best => Nat.le_refl _
  | none :: rest, best => resolveBest_length_mono H rest best
  | some candidate :: rest, best => by
    show (resolveBest H best (some candidate :: rest)).length ≥ _
    unfold resolveBest
    split_ifs with h1 h2
    · exact Nat.le_trans (Nat.le_of_lt h1) (resolveBest_length_mono H rest candidate)
    · exact resolveBest_length_mono H rest best
    · exact resolveBest_length_mono H rest best

theorem resolveBest_cases {Data : Type} (H : HashInput Data → String) :
    ∀ (fetched : List (Option (List (Block Data)))) (best : List (Block Data)),
      resolveBest H best fetched = best ∨
        (some (resolveBest H best fetched) ∈ fetched ∧
          inlineValidChain H (resolveBest H best fetched) = true ∧
          best.length < (resolveBest H best fetched).length)
  | [], best => Or.inl rfl
  | none :: rest, best => by
    rcases resolveBest_cases H rest best with h | ⟨h1, h2, h3⟩
    · exact Or.inl h
    · exact Or.inr ⟨List.mem_cons_of_mem _ h1, h2, h3⟩
  | some candidate :: rest, best => by
    unfold resolveBest
    split_ifs with h1 h2
    · rcases resolveBest_cases H rest candidate with h | ⟨ha, hb, hc⟩
      · exact Or.inr ⟨by rw [h]; exact List.mem_cons_self _ _, by rw [h]; exact h2,
          by rw [h]; exact h1⟩
      · exact Or.inr ⟨List.mem_cons_of_mem _ ha, hb, Nat.lt_trans h1 hc⟩
    · rcases resolveBest_cases H rest best with h | ⟨ha, hb, hc⟩
      · exact Or.inl h
      · exact Or.inr ⟨List.mem_cons_of_mem _ ha, hb, hc⟩
    · rcases resolveBest_cases H rest best with h | ⟨ha, hb, hc⟩
      · exact Or.inl h
      · exact Or.inr ⟨List.mem_cons_of_mem _ ha, hb, hc⟩

theorem resolveBest_dominates {Data : Type} (H : HashInput Data → String) :
    ∀ (fetched : List (Option (List (Block Data)))) (best cand : List (Block Data)),
      some cand ∈ fetched → inlineValidChain H cand = true →
      cand.length ≤ (resolveBest H best fetched).length
  | [], best, cand => by
    intro hmem _
    cases hmem
  | none :: rest, best, cand => by
    intro hmem hval
    rcases List.mem_cons.mp hmem with heq | hmem'
    · cases heq
    · exact resolveBest_dominates H rest best cand hmem' hval
  | some candidate :: rest, best, cand => by
    intro hmem hval
    rcases List.mem_cons.mp hmem with heq | hmem'
    · injection heq with hcc
      subst hcc
      unfold resolveBest
      split_ifs with h1
      · exact resolveBest_length_mono H rest _
      · exact Nat.le_trans (Nat.le_of_not_lt h1) (resolveBest_length_mono H rest best)
    · unfold resolveBest
      split_ifs with h1 h2
      · exact resolveBest_dominates H rest candidate cand hmem' hval
      · exact resolveBest_dominates H rest best cand hmem' hval
      · exact resolveBest_dominates H rest best cand hmem' hval

theorem chain_snoc_indexed {Data : Type} (c : List (Block Data)) (b : Block Data)
    (hidx : ∀ i (h : i < c.length), (c.get ⟨i, h⟩).index = (i : Int))
    (hb : b.index = (c.length : Int)) :
    ∀ i (h : i < (c ++ [b]).length), ((c ++ [b]).get ⟨i, h⟩).index = (i : Int) := by
  intro i h
  rcases Nat.lt_or_ge i c.length with hlt | hge
  · have e : (c ++ [b]).get ⟨i, h⟩ = c.get ⟨i, hlt⟩ := by
      simp [List.get_eq_getElem, List.getElem_append_left hlt]
    rw [e]
    exact hidx i hlt
  · have hi : i = c.length := by
      simp only [List.length_append, List.length_singleton] at h
      omega
    subst hi
    have e : (c ++ [b]).get ⟨c.length, h⟩ = b := by
      simp [List.get_eq_getElem]
    rw [e]
    exact hb

theorem chain_snoc_linked {Data : Type} (c : List (Block Data)) (t b : Block Data)
    (hne : 0 < c.length) (hlast : c.getLast? = some t)
    (hlink : ∀ i (h : i + 1 < c.length),
      (c.get ⟨i + 1, h⟩).prevHash = (c.get ⟨i, Nat.lt_of_succ_lt h⟩).hash)
    (hb : b.prevHash = t.hash) :
    ∀ i (h : i + 1 < (c ++ [b]).length),
      ((c ++ [b]).get ⟨i + 1, h⟩).prevHash =
        ((c ++ [b]).get ⟨i, Nat.lt_of_succ_lt h⟩).hash := by
  intro i h
  rcases Nat.lt_or_ge (i + 1) c.length with hlt | hge
  · have e1 : (c ++ [b]).get ⟨i + 1, h⟩ = c.get ⟨i + 1, hlt⟩ := by
      simp [List.get_eq_getElem, List.getElem_append_left hlt]
    have e2 : (c ++ [b]).get ⟨i, Nat.lt_of_succ_lt h⟩ = c.get ⟨i, Nat.lt_of_succ_lt hlt⟩ := by
      simp [List.get_eq_getElem, List.getElem_append_left (Nat.lt_of_succ_lt hlt)]
    rw [e1, e2]
    exact hlink i hlt
  · have hi : i + 1 = c.length := by
      simp only [List.length_append, List.length_singleton] at h
      omega
    have e1 : (c ++ [b]).get ⟨i + 1, h⟩ = b := by
      simp [List.get_eq_getElem, hi]
    have hic : i < c.length := by omega
    have e2 : (c ++ [b]).get ⟨i, Nat.lt_of_succ_lt h⟩ = c.get ⟨i, hic⟩ := by
      simp [List.get_eq_getElem, List.getElem_append_left hic]
    have ht : t = c.get ⟨c.length - 1, by omega⟩ := by
      have := getLast?_eq_get c hne
      rw [hlast] at this
      exact Option.some.inj this
    have hie : i = c.length - 1 := by omega
    have hfin : (⟨c.length - 1, by omega⟩ : Fin c.length) = ⟨i, hic⟩ :=
      Fin.ext (show c.length - 1 = i by omega)
    rw [e1, e2, hb, ht]
    exact congrArg (fun f => (c.get f).hash) hfin

theorem tip_index_of_indexed {Data : Type} (c : List (Block Data)) (t : Block Data)
    (hlast : c.getLast? = some t)
    (hidx : ∀ i (h : i < c.length), (c.get ⟨i, h⟩).index = (i : Int)) :
    0 < c.length ∧ t.index = (c.length : Int) - 1 := by
  have hne : 0 < c.length := by
    cases c with
    | nil => cases hlast
    | cons a l => simp
  have hg := getLast?_eq_get c hne
  rw [hlast] at hg
  have ht : t = c.get ⟨c.length - 1, by omega⟩ := Option.some.inj hg
  refine ⟨hne, ?_⟩
  rw [ht, hidx (c.length - 1) (by omega)]
  omega

theorem applyAppendOp_some {Data : Type} (H : HashInput Data → String) (bc bc₁ : Blockchain Data)
    (op : AppendOp Data) (h : applyAppendOp H bc op = some bc₁) :
    ∃ prev b, getLatestBlock bc = some prev ∧ isValidNewBlock H b prev = true ∧
      bc₁.chain = bc.chain ++ [b] ∧ bc₁.defaultDifficulty = bc.defaultDifficulty := by
  cases op with
  | set data timestamp fuel =>
    simp only [applyAppendOp, Option.map_eq_some'] at h
    obtain ⟨⟨bcx, b⟩, hx, hfst⟩ := h
    have hbc : bcx = bc₁ := hfst
    subst hbc
    obtain ⟨prev, h1, h2, h3, h4, _⟩ := setBlock_some H bc data timestamp fuel bcx b hx
    exact ⟨prev, b, h1, h2, h3, h4⟩
  | mine data difficulty timestamp fuel =>
    simp only [applyAppendOp, Option.map_eq_some'] at h
    obtain ⟨⟨bcx, b⟩, hx, hfst⟩ := h
    have hbc : bcx = bc₁ := hfst
    subst hbc
    obtain ⟨prev, h1, h2, h3, h4, _⟩ := mineBlock_some H bc data difficulty timestamp fuel bcx b hx
    exact ⟨prev, b, h1, h2, h3, h4⟩

theorem applyAppendOps_spec {Data : Type} (H : HashInput Data → String) :
    ∀ (ops : List (AppendOp Data)) (bc bc' : Blockchain Data),
      0 < bc.chain.length →
      (∀ i (h : i < bc.chain.length), (bc.chain.get ⟨i, h⟩).index = (i : Int)) →
      (∀ i (h : i + 1 < bc.chain.length),
        (bc.chain.get ⟨i + 1, h⟩).prevHash = (bc.chain.get ⟨i, Nat.lt_of_succ_lt h⟩).hash) →
      applyAppendOps H bc ops = some bc' →
      bc'.chain.length = bc.chain.length + ops.length ∧
        (∀ i (h : i < bc'.chain.length), (bc'.chain.get ⟨i, h⟩).index = (i : Int)) ∧
        (∀ i (h : i + 1 < bc'.chain.length),
          (bc'.chain.get ⟨i + 1, h⟩).prevHash =
            (bc'.chain.get ⟨i, Nat.lt_of_succ_lt h⟩).hash)
  | [], bc, bc' => by
    intro hne hidx hlink happ
    have hbc : bc = bc' := Option.some.inj happ
    subst hbc
    exact ⟨by simp, hidx, hlink⟩
  | op :: ops, bc, bc' => by
    intro hne hidx hlink happ
    have hstep : ∃ bc₁, applyAppendOp H bc op = some bc₁ ∧
        applyAppendOps H bc₁ ops = some bc' := by
      cases hop : applyAppendOp H bc op with
      | none =>
        rw [show applyAppendOps H bc (op :: ops) =
          (match applyAppendOp H bc op with
           | none => none
           | some bc₁ => applyAppendOps H bc₁ ops) from rfl, hop] at happ
        cases happ
      | some bc₁ =>
        rw [show applyAppendOps H bc (op :: ops) =
          (match applyAppendOp H bc op with
           | none => none
           | some bcx => applyAppendOps H bcx ops) from rfl, hop] at happ
        exact ⟨bc₁, rfl, happ⟩
    obtain ⟨bc₁, hop, hrest⟩ := hstep
    obtain ⟨prev, b, hprev, hvalid, hchain, _⟩ := applyAppendOp_some H bc bc₁ op hop
    rw [isValidNewBlock_iff] at hvalid
    obtain ⟨hbidx, hblink, _, _⟩ := hvalid
    obtain ⟨_, htidx⟩ := tip_index_of_indexed bc.chain prev hprev hidx
    have hbidx' : b.index = (bc.chain.length : Int) := by
      rw [← hbidx, htidx]
      omega
    have hidx₁ : ∀ i (h : i < bc₁.chain.length), (bc₁.chain.get ⟨i, h⟩).index = (i : Int) := by
      rw [hchain] at *
      exact chain_snoc_indexed bc.chain b hidx hbidx'
    have hlink₁ : ∀ i (h : i + 1 < bc₁.chain.length),
        (bc₁.chain.get ⟨i + 1, h⟩).prevHash =
          (bc₁.chain.get ⟨i, Nat.lt_of_succ_lt h⟩).hash := by
      rw [hchain] at *
      exact chain_snoc_linked bc.chain prev b hne hprev hlink hblink.symm
    have hne₁ : 0 < bc₁.chain.length := by
      rw [hchain]
      simp
    obtain ⟨hlen', hidx', hlink'⟩ := applyAppendOps_spec H ops bc₁ bc' hne₁ hidx₁ hlink₁ hrest
    refine ⟨?_, hidx', hlink'⟩
    rw [hlen', hchain]
    simp
    omega

/-! ### Claim theorems -/

/-- C1: for every current chain and candidate sequence, `replaceChain`
returns true and installs the candidate as the new chain if and only if the
candidate is strictly longer than the current chain and passes `isChainValid`;
in every other case it returns false and the chain is left exactly unchanged. -/
theorem replaceChain_true_iff_longer_and_valid {Data : Type} (H : HashInput Data → String)
    (bc : Blockchain Data) (candidate : List (Block Data)) :
    ((replaceChain H bc candidate).2 = true ↔
      bc.chain.length < candidate.length ∧ isChainValid H candidate = true) ∧
    ((replaceChain H bc candidate).2 = true →
      replaceChain H bc candidate = ({ bc with chain := candidate }, true)) ∧
    (¬ (bc.chain.length < candidate.length ∧ isChainValid H candidate = true) →
      replaceChain H bc candidate = (bc, false)) := by
  obtain ⟨h1, h2, h3⟩ := replaceChain_spec H bc candidate
  refine ⟨h1, h2, fun hnot => ?_⟩
  apply h3
  rcases Bool.eq_false_or_eq_true (replaceChain H bc candidate).2 with ht | hf
  · exact absurd (h1.mp ht) hnot
  · exact hf

/-- C2: given the current tip `t`, the receive-pushed-block handler appends
the pushed block `b` (and only `b`) if and only if `b.index = t.index + 1`,
`b.prevHash = t.hash`, the hash recomputed from `b`'s fields equals `b.hash`,
and `b.hash` has at least `b.difficulty` leading zero characters; otherwise it
rejects and the chain is unchanged — in particular a pushed block whose index
skips ahead of `t.index + 1` is always rejected. -/
theorem apiReceiveBlock_accepts_iff {Data : Type} (H : HashInput Data → String)
    (bc : Blockchain Data) (t b : Block Data) (htip : getLatestBlock bc = some t) :
    ((apiReceiveBlock H bc b).2 = true ↔
      (b.index = t.index + 1 ∧ b.prevHash = t.hash ∧
        calculateHash H b.fields = b.hash ∧ hashMeetsTarget b.hash b.difficulty = true)) ∧
    ((apiReceiveBlock H bc b).2 = true →
      (apiReceiveBlock H bc b).1 = { bc with chain := bc.chain ++ [b] }) ∧
    ((apiReceiveBlock H bc b).2 = false → (apiReceiveBlock H bc b).1 = bc) ∧
    (t.index + 1 < b.index → (apiReceiveBlock H bc b).2 = false) := by
  have hred : apiReceiveBlock H bc b =
      if isValidNewBlock H b t then ({ bc with chain := bc.chain ++ [b] }, true)
      else (bc, false) := by
    unfold apiReceiveBlock
    rw [htip]
  by_cases hv : isValidNewBlock H b t = true
  · rw [hred, if_pos hv]
    have hcond := (isValidNewBlock_iff H b t).mp hv
    refine ⟨⟨fun _ => ⟨hcond.1.symm, hcond.2.1.symm, hcond.2.2.1, hcond.2.2.2⟩, fun _ => rfl⟩,
      fun _ => rfl, fun hf => absurd hf (by simp), fun hskip => absurd hcond.1 (by omega)⟩
  · rw [hred, if_neg hv]
    exact ⟨⟨fun hf => absurd hf (by simp),
      fun hc => absurd ((isValidNewBlock_iff H b t).mpr
        ⟨hc.1.symm, hc.2.1.symm, hc.2.2.1, hc.2.2.2⟩) hv⟩,
      fun hf => absurd hf (by simp), fun _ => rfl, fun _ => rfl⟩

/-- C4: `isValidNewBlock(c, p)` returns true if and only if all four
conditions hold: `c.index = p.index + 1`; `c.prevHash = p.hash`; the hash
recomputed over `c`'s fields equals `c.hash`; and `c.hash` has at least
`c.difficulty` leading zero characters. -/
theorem isValidNewBlock_four_checks {Data : Type} (H : HashInput Data → String)
    (c p : Block Data) :
    isValidNewBlock H c p = true ↔
      (c.index = p.index + 1 ∧ c.prevHash = p.hash ∧
        calculateHash H c.fields = c.hash ∧ hashMeetsTarget c.hash c.difficulty = true) := by
  rw [isValidNewBlock_iff]
  constructor
  · rintro ⟨h1, h2, h3, h4⟩
    exact ⟨h1.symm, h2.symm, h3, h4⟩
  · rintro ⟨h1, h2, h3, h4⟩
    exact ⟨h1.symm, h2.symm, h3, h4⟩

/-- C9: validation checks the proof-of-work target only against the block's
own `difficulty` field, never against the node's default: a block `b` whose
index, link and recomputed-hash checks pass and whose `difficulty` field is 0
satisfies the leading-zeros clause vacuously, so it passes `isValidNewBlock`,
is accepted by the receive-pushed-block handler, and extends a valid chain,
for every value of the node's `defaultDifficulty`. -/
theorem difficulty_zero_block_accepted {Data : Type} (H : HashInput Data → String)
    (bc : Blockchain Data) (d : Nat) (t b : Block Data)
    (htip : getLatestBlock bc = some t)
    (hidx : b.index = t.index + 1) (hlink : b.prevHash = t.hash)
    (hhash : calculateHash H b.fields = b.hash) (hdiff : b.difficulty = 0) :
    isValidNewBlock H b t = true ∧
    (apiReceiveBlock H { bc with defaultDifficulty := d } b).2 = true ∧
    (apiReceiveBlock H { bc with defaultDifficulty := d } b).1.chain = bc.chain ++ [b] ∧
    (isChainValid H bc.chain = true → isChainValid H (bc.chain ++ [b]) = true) := by
  have hpow : hashMeetsTarget b.hash b.difficulty = true := by
    rw [hdiff]
    simp [hashMeetsTarget, List.isPrefixOf]
  have hv : isValidNewBlock H b t = true :=
    (isValidNewBlock_iff H b t).mpr ⟨hidx.symm, hlink.symm, hhash, hpow⟩
  have htip' : getLatestBlock { bc with defaultDifficulty := d } = some t := htip
  have hred0 : apiReceiveBlock H { bc with defaultDifficulty := d } b =
      if isValidNewBlock H b t then
        ({ chain := bc.chain ++ [b], defaultDifficulty := d }, true)
      else ({ chain := bc.chain, defaultDifficulty := d }, false) := by
    unfold apiReceiveBlock
    rw [htip']
  have hred : apiReceiveBlock H { bc with defaultDifficulty := d } b =
      ({ chain := bc.chain ++ [b], defaultDifficulty := d }, true) := by
    rw [hred0, if_pos hv]
  refine ⟨hv, by rw [hred], by rw [hred], fun hvc => ?_⟩
  have hne : ¬ bc.chain.length = 0 := by
    cases hc : bc.chain with
    | nil =>
      rw [getLatestBlock, hc] at htip
      cases htip
    | cons x l => simp [hc]
  have hclv : chainLinksValid H bc.chain = true := by
    unfold isChainValid at hvc
    rw [if_neg hne] at hvc
    exact hvc
  have happ := chainLinksValid_append H bc.chain t b htip hclv hv
  unfold isChainValid
  rw [if_neg (by simp), happ]

/-- C5: `isChainValid` returns false on the empty sequence, and otherwise
returns true iff `isValidNewBlock(s[i], s[i-1])` holds for every index `i`
from 1 onward; the block at index 0 is never itself checked, so every
length-1 sequence is valid regardless of its block's contents. -/
theorem isChainValid_adjacent_pairs {Data : Type} (H : HashInput Data → String)
    (s : List (Block Data)) :
    isChainValid H ([] : List (Block Data)) = false ∧
    (isChainValid H s = true ↔ s ≠ [] ∧
      ∀ i (h1 : 1 ≤ i) (h2 : i < s.length),
        isValidNewBlock H (s.get ⟨i, h2⟩) (s.get ⟨i - 1, by omega⟩) = true) ∧
    (∀ b : Block Data, isChainValid H [b] = true) := by
  refine ⟨rfl, ?_, fun b => rfl⟩
  cases s with
  | nil => simp [isChainValid]
  | cons a l =>
    have hval : isChainValid H (a :: l) = chainLinksValid H (a :: l) := by
      unfold isChainValid
      rw [if_neg (by simp)]
    rw [hval, chainLinksValid_iff_pairs]
    constructor
    · intro hp
      refine ⟨by simp, fun i h1 h2 => ?_⟩
      have hfin : (⟨i - 1 + 1, by omega⟩ : Fin (a :: l).length) = ⟨i, h2⟩ :=
        Fin.ext (show i - 1 + 1 = i by omega)
      rw [← hfin]
      exact hp (i - 1) (by omega)
    · rintro ⟨-, hall⟩ i h
      have hfin : (⟨i + 1 - 1, by omega⟩ : Fin (a :: l).length) = ⟨i, Nat.lt_of_succ_lt h⟩ :=
        Fin.ext (show i + 1 - 1 = i by omega)
      rw [← hfin]
      exact hall (i + 1) (by omega) (by omega)

/-- C6: under the precondition that some nonce (below the fuel bound) yields a
hash with at least `difficulty` leading zero characters, `proofOfWork` returns
the least nonce whose hash meets the target together with that hash; the hash
equals the recomputed hash of the returned fields and has at least
`difficulty` leading zeros, and for difficulty 0 the returned nonce is 0. -/
theorem proofOfWork_least_nonce {Data : Type} (H : HashInput Data → String) (index : Int)
    (timestamp : Nat) (data : Data) (prevHash : String) (difficulty fuel m : Nat)
    (hm : hashMeetsTarget (H ⟨index, timestamp, data, prevHash, m, difficulty⟩)
      difficulty = true)
    (hfuel : m < fuel) :
    ∃ n hash, proofOfWork H index timestamp data prevHash difficulty fuel = some (n, hash) ∧
      hash = calculateHash H ⟨index, timestamp, data, prevHash, n, difficulty⟩ ∧
      hashMeetsTarget hash difficulty = true ∧
      (∀ k, k < n →
        hashMeetsTarget (H ⟨index, timestamp, data, prevHash, k, difficulty⟩)
          difficulty = false) ∧
      (difficulty = 0 → n = 0) := by
  have hsome := proofOfWorkAux_complete H index timestamp data prevHash difficulty fuel 0 m
    (Nat.zero_le m) (by omega) hm
  rw [Option.isSome_iff_exists] at hsome
  obtain ⟨⟨n, hash⟩, hsome⟩ := hsome
  obtain ⟨-, hh, hmeets, hleast⟩ :=
    proofOfWorkAux_sound H index timestamp data prevHash difficulty fuel 0 n hash hsome
  refine ⟨n, hash, hsome, hh, hmeets, fun k hk => hleast k (Nat.zero_le k) hk, fun hd0 => ?_⟩
  by_contra hn0
  have := hleast 0 (Nat.le_refl 0) (by omega)
  rw [hd0] at this
  have htrue : hashMeetsTarget (H ⟨index, timestamp, data, prevHash, 0, 0⟩) 0 = true := by
    simp [hashMeetsTarget, List.isPrefixOf]
  rw [htrue] at this
  cases this

/-- C10: `mineBlock` mines with the supplied difficulty exactly when that
argument is a number strictly greater than 0; for 0, a negative number or a
non-number it falls back to the ledger's `defaultDifficulty`. -/
theorem mineBlock_difficulty_choice {Data : Type} (H : HashInput Data → String)
    (bc : Blockchain Data) (data : Data) (difficulty : Option Int) (timestamp fuel : Nat)
    (bc' : Blockchain Data) (b : Block Data)
    (h : mineBlock H bc data difficulty timestamp fuel = some (bc', b)) :
    ((difficulty = none ∨ ∃ d, difficulty = some d ∧ d ≤ 0) →
      b.difficulty = bc.defaultDifficulty) ∧
    (∀ d, difficulty = some d → 0 < d → (b.difficulty : Int) = d) := by
  obtain ⟨prev, -, -, -, -, hdiff, -, -⟩ :=
    mineBlock_some H bc data difficulty timestamp fuel bc' b h
  constructor
  · rintro (rfl | ⟨d, rfl, hd⟩)
    · exact hdiff
    · rw [hdiff]
      simp [mineDifficulty]
      omega
  · rintro d rfl hd
    rw [hdiff]
    simp [mineDifficulty, hd]
    omega

/-- C3 (amended): the resolve endpoint keeps as best the longest fetched
candidate among those that pass its inline validation (recomputed hash, link
continuity and PoW target — index continuity is not checked inline), a
candidate being validated and adopted only when strictly longer than the
running best, which starts as the local chain (exact length ties and failed
fetches never displace it); the selected best is then handed to
`replaceChain`, so the local chain is replaced exactly when that selected best
is strictly longer than the local chain and passes the full `isChainValid`. -/
theorem apiResolve_spec {Data : Type} (H : HashInput Data → String) (bc : Blockchain Data)
    (fetched : List (Option (List (Block Data)))) :
    (resolveBest H bc.chain fetched = bc.chain ∨
      (some (resolveBest H bc.chain fetched) ∈ fetched ∧
        inlineValidChain H (resolveBest H bc.chain fetched) = true ∧
        bc.chain.length < (resolveBest H bc.chain fetched).length)) ∧
    (∀ cand, some cand ∈ fetched → inlineValidChain H cand = true →
      cand.length ≤ (resolveBest H bc.chain fetched).length) ∧
    apiResolve H bc fetched = replaceChain H bc (resolveBest H bc.chain fetched) ∧
    ((apiResolve H bc fetched).2 = true ↔
      bc.chain.length < (resolveBest H bc.chain fetched).length ∧
      isChainValid H (resolveBest H bc.chain fetched) = true) ∧
    ((apiResolve H bc fetched).2 = true →
      (apiResolve H bc fetched).1 = { bc with chain := resolveBest H bc.chain fetched }) ∧
    ((apiResolve H bc fetched).2 = false → (apiResolve H bc fetched).1 = bc) := by
  obtain ⟨h1, h2, h3⟩ := replaceChain_spec H bc (resolveBest H bc.chain fetched)
  exact ⟨resolveBest_cases H fetched bc.chain,
    fun cand hm hv => resolveBest_dominates H fetched bc.chain cand hm hv,
    rfl, h1, fun ht => by rw [show apiResolve H bc fetched =
      replaceChain H bc (resolveBest H bc.chain fetched) from rfl, h2 ht],
    fun hf => by rw [show apiResolve H bc fetched =
      replaceChain H bc (resolveBest H bc.chain fetched) from rfl, h3 hf]⟩

/-- C3 (counterexample): a fetched candidate passing `isChainValid` is
strictly longer than the local chain, yet resolve returns false and leaves the
local chain unchanged, because the longer index-broken candidate passes the
inline validation, is selected as best, and then fails `isChainValid` inside
`replaceChain`. -/
theorem apiResolve_misses_longest_valid :
    isChainValid hashConstZero goodCandW = true ∧
    localNodeW.chain.length < goodCandW.length ∧
    some goodCandW ∈ fetchedW ∧
    inlineValidChain hashConstZero badCandW = true ∧
    isChainValid hashConstZero badCandW = false ∧
    (apiResolve hashConstZero localNodeW fetchedW).2 = false ∧
    (apiResolve hashConstZero localNodeW fetchedW).1 = localNodeW := by
  decide

/-- C7: starting from a genesis-only chain (one block of index 0), any
sequence of N successful append operations (`setBlock` or `mineBlock` calls)
produces a chain of length N + 1 whose blocks carry indices 0..N in order and
where `chain[i].prevHash = chain[i-1].hash` for every i from 1 to N. -/
theorem appendOps_from_genesis_shape {Data : Type} (H : HashInput Data → String)
    (bc bc' : Blockchain Data) (g : Block Data) (ops : List (AppendOp Data))
    (hgen : bc.chain = [g]) (hg0 : g.index = 0)
    (happ : applyAppendOps H bc ops = some bc') :
    bc'.chain.length = ops.length + 1 ∧
    (∀ i (h : i < bc'.chain.length), (bc'.chain.get ⟨i, h⟩).index = (i : Int)) ∧
    (∀ i (h : i + 1 < bc'.chain.length),
      (bc'.chain.get ⟨i + 1, h⟩).prevHash =
        (bc'.chain.get ⟨i, Nat.lt_of_succ_lt h⟩).hash) := by
  obtain ⟨ch, dd⟩ := bc
  change ch = [g] at hgen
  subst hgen
  have hne : 0 < ({ chain := [g], defaultDifficulty := dd } : Blockchain Data).chain.length := by
    simp
  have hidx : ∀ i (h : i < ([g] : List (Block Data)).length),
      (([g] : List (Block Data)).get ⟨i, h⟩).index = (i : Int) := by
    intro i h
    simp only [List.length_singleton] at h
    have hi : i = 0 := by omega
    subst hi
    simpa using hg0
  have hlink : ∀ i (h : i + 1 < ([g] : List (Block Data)).length),
      (([g] : List (Block Data)).get ⟨i + 1, h⟩).prevHash =
        (([g] : List (Block Data)).get ⟨i, Nat.lt_of_succ_lt h⟩).hash := by
    intro i h
    simp at h
  obtain ⟨hlen, hidx', hlink'⟩ :=
    applyAppendOps_spec H ops { chain := [g], defaultDifficulty := dd } bc' hne hidx hlink happ
  refine ⟨?_, hidx', hlink'⟩
  rw [hlen]
  simp [Nat.add_comm]

theorem chainLinksValid_false_of_bad_pair {Data : Type} (H : HashInput Data → String)
    (c : List (Block Data)) (i : Nat) (h : i + 1 < c.length)
    (hbad : isValidNewBlock H (c.get ⟨i + 1, h⟩) (c.get ⟨i, Nat.lt_of_succ_lt h⟩) = false) :
    chainLinksValid H c = false := by
  rcases Bool.eq_false_or_eq_true (chainLinksValid H c) with ht | hf
  · have := (chainLinksValid_iff_pairs H c).mp ht i h
    rw [hbad] at this
    cases this
  · exact hf

/-- C8: in a valid chain, changing exactly one of the fields index, prevHash,
nonce, difficulty, payload (data) or hash of any one non-genesis block to a
different value makes `isChainValid` of the mutated chain false, provided the
hash function does not collide on the distinct serializations involved. -/
theorem single_field_mutation_invalidates {Data : Type} (H : HashInput Data → String)
    (c : List (Block Data)) (k : Nat) (b' : Block Data)
    (hvalid : isChainValid H c = true) (hk : 0 < k) (hklen : k < c.length)
    (hmut : MutatedOneField (c.get ⟨k, hklen⟩) b')
    (hnocoll : Block.fields b' ≠ Block.fields (c.get ⟨k, hklen⟩) →
      H (Block.fields b') ≠ H (Block.fields (c.get ⟨k, hklen⟩))) :
    isChainValid H (c.set k b') = false := by
  have hlen0 : ¬ c.length = 0 := by omega
  have hclv : chainLinksValid H c = true := by
    unfold isChainValid at hvalid
    rw [if_neg hlen0] at hvalid
    exact hvalid
  have hkm : k - 1 + 1 < c.length := by omega
  have hkm1 : k - 1 < c.length := by omega
  have hpair : isValidNewBlock H (c.get ⟨k, hklen⟩) (c.get ⟨k - 1, hkm1⟩) = true := by
    have hfin : (⟨k - 1 + 1, hkm⟩ : Fin c.length) = ⟨k, hklen⟩ :=
      Fin.ext (show k - 1 + 1 = k by omega)
    rw [← hfin]
    exact (chainLinksValid_iff_pairs H c).mp hclv (k - 1) hkm
  rw [isValidNewBlock_iff] at hpair
  obtain ⟨hpidx, hplink, hphash, -⟩ := hpair
  have hbad : isValidNewBlock H b' (c.get ⟨k - 1, hkm1⟩) = false := by
    rcases Bool.eq_false_or_eq_true (isValidNewBlock H b' (c.get ⟨k - 1, hkm1⟩)) with ht | hf
    · exfalso
      rw [isValidNewBlock_iff] at ht
      obtain ⟨hidx', hlink', hhash', -⟩ := ht
      rcases hmut with ⟨hne, -, -, -, -, -, -⟩ | ⟨-, -, -, hne, -, -, -⟩ |
        ⟨-, -, -, -, hne, -, heq⟩ | ⟨-, -, -, -, -, hne, heq⟩ |
        ⟨-, -, hne, -, -, -, heq⟩ | ⟨h1, h2, h3, h4, h5, h6, hne⟩
      · exact hne (hidx'.symm.trans hpidx)
      · exact hne (hlink'.symm.trans hplink)
      · exact hnocoll (fun he => hne (congrArg HashInput.nonce he))
          (hhash'.trans (heq.trans hphash.symm))
      · exact hnocoll (fun he => hne (congrArg HashInput.difficulty he))
          (hhash'.trans (heq.trans hphash.symm))
      · exact hnocoll (fun he => hne (congrArg HashInput.data he))
          (hhash'.trans (heq.trans hphash.symm))
      · have hfe : Block.fields b' = Block.fields (c.get ⟨k, hklen⟩) := by
          unfold Block.fields
          rw [h1, h2, h3, h4, h5, h6]
        exact hne (hhash'.symm.trans (by rw [show calculateHash H b'.fields =
          calculateHash H (c.get ⟨k, hklen⟩).fields from congrArg (calculateHash H) hfe,
          hphash]))
    · exact hf
  have hsetlen : (c.set k b').length = c.length := by
    simp
  have hb1 : k - 1 + 1 < (c.set k b').length := by
    rw [hsetlen]
    omega
  have hgetk : (c.set k b').get ⟨k - 1 + 1, hb1⟩ = b' := by
    have hfin : (⟨k - 1 + 1, hb1⟩ : Fin (c.set k b').length) =
        ⟨k, by rw [hsetlen]; omega⟩ := Fin.ext (show k - 1 + 1 = k by omega)
    rw [hfin]
    simp only [List.get_eq_getElem]
    exact List.getElem_set_self (show k < (c.set k b').length by rw [hsetlen]; omega)
  have hgetkm : (c.set k b').get ⟨k - 1, Nat.lt_of_succ_lt hb1⟩ = c.get ⟨k - 1, hkm1⟩ := by
    simp only [List.get_eq_getElem]
    exact List.getElem_set_ne (show k ≠ k - 1 by omega) _
  have hbadpair : isValidNewBlock H ((c.set k b').get ⟨k - 1 + 1, hb1⟩)
      ((c.set k b').get ⟨k - 1, Nat.lt_of_succ_lt hb1⟩) = false := by
    rw [hgetk, hgetkm]
    exact hbad
  have hfalse := chainLinksValid_false_of_bad_pair H (c.set k b') (k - 1) hb1 hbadpair
  unfold isChainValid
  rw [if_neg (by rw [hsetlen]; omega)]
  exact hfalse

/-- Witness for the receive-block characterization at a concrete tip. -/
theorem apiReceiveBlock_accepts_iff_witness :
    ((apiReceiveBlock hashConstZero localNodeW goodNextW).2 = true ↔
      (goodNextW.index = genesisW.index + 1 ∧ goodNextW.prevHash = genesisW.hash ∧
        calculateHash hashConstZero goodNextW.fields = goodNextW.hash ∧
        hashMeetsTarget goodNextW.hash goodNextW.difficulty = true)) ∧
    ((apiReceiveBlock hashConstZero localNodeW goodNextW).2 = true →
      (apiReceiveBlock hashConstZero localNodeW goodNextW).1 =
        { localNodeW with chain := localNodeW.chain ++ [goodNextW] }) ∧
    ((apiReceiveBlock hashConstZero localNodeW goodNextW).2 = false →
      (apiReceiveBlock hashConstZero localNodeW goodNextW).1 = localNodeW) ∧
    (genesisW.index + 1 < goodNextW.index →
      (apiReceiveBlock hashConstZero localNodeW goodNextW).2 = false) :=
  apiReceiveBlock_accepts_iff hashConstZero localNodeW genesisW goodNextW (by decide)

/-- Witness for the proof-of-work characterization at a concrete input. -/
theorem proofOfWork_least_nonce_witness :
    ∃ n hash, proofOfWork hashConstZero 1 0 5 "0" 1 1 = some (n, hash) ∧
      hash = calculateHash hashConstZero ⟨1, 0, 5, "0", n, 1⟩ ∧
      hashMeetsTarget hash 1 = true ∧
      (∀ k, k < n → hashMeetsTarget (hashConstZero ⟨1, 0, 5, "0", k, 1⟩) 1 = false) ∧
      (1 = 0 → n = 0) :=
  proofOfWork_least_nonce hashConstZero 1 0 5 "0" 1 1 0 (by decide) (by decide)

/-- Witness for the append-from-genesis shape at one concrete append. -/
theorem appendOps_from_genesis_shape_witness :
    appendedNodeW.chain.length = 1 + 1 ∧
    (∀ i (h : i < appendedNodeW.chain.length),
      (appendedNodeW.chain.get ⟨i, h⟩).index = (i : Int)) ∧
    (∀ i (h : i + 1 < appendedNodeW.chain.length),
      (appendedNodeW.chain.get ⟨i + 1, h⟩).prevHash =
        (appendedNodeW.chain.get ⟨i, Nat.lt_of_succ_lt h⟩).hash) :=
  appendOps_from_genesis_shape hashConstZero startNodeW appendedNodeW genesisW
    [AppendOp.set 7 0 1] rfl rfl (by decide)

/-- Witness for the single-field-mutation theorem: tampering with the hash of
the non-genesis block of a concrete valid two-block chain. -/
theorem single_field_mutation_invalidates_witness :
    isChainValid hashConstZero (goodCandW.set 1 tamperedBlockW) = false :=
  single_field_mutation_invalidates hashConstZero goodCandW 1 tamperedBlockW
    (by decide) (by decide) (by decide) (by decide) (by decide)

/-- Witness for the difficulty-zero acceptance theorem at a concrete state
with default difficulty 9. -/
theorem difficulty_zero_block_accepted_witness :
    isValidNewBlock hashConstZero zeroDiffBlockW genesisW = true ∧
    (apiReceiveBlock hashConstZero
      { localNodeW with defaultDifficulty := 9 } zeroDiffBlockW).2 = true ∧
    (apiReceiveBlock hashConstZero
      { localNodeW with defaultDifficulty := 9 } zeroDiffBlockW).1.chain =
      localNodeW.chain ++ [zeroDiffBlockW] ∧
    (isChainValid hashConstZero localNodeW.chain = true →
      isChainValid hashConstZero (localNodeW.chain ++ [zeroDiffBlockW]) = true) :=
  difficulty_zero_block_accepted hashConstZero localNodeW 9 genesisW zeroDiffBlockW
    (by decide) (by decide) (by decide) (by decide) (by decide)

/-- Witness for the mined-difficulty selection at a concrete call with a
supplied difficulty of 0 (falls back to the default). -/
theorem mineBlock_difficulty_choice_witness :
    ((some (0 : Int) = none ∨ ∃ d : Int, some (0 : Int) = some d ∧ d ≤ 0) →
      minedBlockW.difficulty = startNodeW.defaultDifficulty) ∧
    (∀ d : Int, some (0 : Int) = some d → 0 < d → (minedBlockW.difficulty : Int) = d) :=
  mineBlock_difficulty_choice hashConstZero startNodeW 7 (some 0) 0 1 appendedNodeW
    minedBlockW (by decide)
